import Mathlib

/-!
Verification of the Kepner-Tregoe decision-analysis engine (`nadan.py`).

The engine is embedded shallowly:
* a score cell is an `Option ℚ`, with `none` as the missing sentinel (float
  NaN in the source);
* weights and known scores are `ℚ`;
* Python operations that can raise (`float` division by zero, `max` of an
  empty sequence) return `Option`, with `none` for the raised exception;
* Python's negative list indexing (`scores[-1]`) is modelled explicitly.
-/

namespace Nadan

/-- A Kepner-Tregoe Decision Analysis table (`class KTDA`): criteria names,
criteria weights, alternative names, and the scores matrix indexed
`scores[alternative][criterion]`. The constructor stores the four sequences
as given, exactly as `KTDA.__init__` does. -/
structure KTDA where
  criteria : List String
  weights : List ℚ
  alternatives : List String
  scores : List (List (Option ℚ))
deriving DecidableEq

/-- `is_missing`: true iff the value represents a missing value (NaN test). -/
def is_missing (x : Option ℚ) : Bool := x.isNone

/-- `has_missing`: true iff at least one score in the row is missing. -/
def has_missing (scores : List (Option ℚ)) : Bool := scores.any is_missing

/-- Addition as Python `+=` behaves on floats where `none` stands for NaN:
one NaN operand makes the sum NaN. -/
def optAdd : Option ℚ → Option ℚ → Option ℚ
  | some a, some b => some (a + b)
  | _, _ => none

/-- `KTDA._weighted_score`: `weights[c] * scores[a][c]`; missing propagates. -/
def KTDA.weighted_score (t : KTDA) (a c : ℕ) : Option ℚ :=
  ((t.scores.getD a []).getD c none).map (fun s => t.weights.getD c 0 * s)

/-- `KTDA._total_weighted_score`: `total = 0.0` then `total += weighted_score`
over all criteria; one missing term makes the total missing. -/
def KTDA.total_weighted_score (t : KTDA) (a : ℕ) : Option ℚ :=
  (List.range t.criteria.length).foldl (fun acc c => optAdd acc (t.weighted_score a c)) (some 0)

/-- Python's `>` on floats where `none` stands for NaN: any comparison with
NaN is false. -/
def pyGt : Option ℚ → Option ℚ → Bool
  | some a, some b => decide (b < a)
  | _, _ => false

/-- `argmax(seq)`: `max(range(len(seq)), key=lambda i: seq[i])`. CPython's
`max` keeps the first element whose key strictly exceeds the current best,
so the first index attaining the maximum wins; `max` of an empty sequence
raises `ValueError`, modelled by `none`. -/
def argmax (seq : List (Option ℚ)) : Option ℕ :=
  if seq.isEmpty then none
  else some ((List.range seq.length).foldl
    (fun b i => if pyGt (seq.getD i none) (seq.getD b none) then i else b) 0)

/-- `KTDA.best_alternative`: index of the alternative with the largest total
weighted score. -/
def KTDA.best_alternative (t : KTDA) : Option ℕ :=
  argmax ((List.range t.alternatives.length).map t.total_weighted_score)

/-- Division as Python performs it on floats: the divisor `0` raises
`ZeroDivisionError`, modelled by `none`. -/
def pyDiv (x y : ℚ) : Option ℚ := if y = 0 then none else some (x / y)

/-- One cell of the score-normalisation map `lambda x: x/max_score`: a zero
`max_score` raises (also on a NaN cell); otherwise a missing cell stays
missing and a known cell is divided. -/
def divCell (max_score : ℚ) (c : Option ℚ) : Option (Option ℚ) :=
  if max_score = 0 then none else some (c.map (fun x => x / max_score))

/-- `KTDA.new_normalized`: weights rescaled by `100/sum(weights)` and every
score divided by `max_score`; criteria and alternative names are kept. The
weight map runs first, as in the source, and an empty sequence raises
nothing because the mapped function is never applied. -/
def KTDA.new_normalized (t : KTDA) (max_score : ℚ) : Option KTDA := do
  let sum_weights := t.weights.sum
  let new_weights ← t.weights.mapM (fun x => pyDiv (100 * x) sum_weights)
  let new_scores ← t.scores.mapM (fun row => row.mapM (divCell max_score))
  some (KTDA.mk t.criteria new_weights t.alternatives new_scores)

/-- The loop body of `euclidean_distance`: positions where either operand is
missing are skipped, known pairs contribute their squared difference. -/
def sum_squared_differences (x y : List (Option ℚ)) : ℚ :=
  (List.range x.length).foldl (fun acc i =>
    match x.getD i none, y.getD i none with
    | some xx, some yy => acc + (xx - yy) * (xx - yy)
    | _, _ => acc) 0

/-- `euclidean_distance`: square root of the sum of squared differences over
the jointly known positions. -/
noncomputable def euclidean_distance (x y : List (Option ℚ)) : ℝ :=
  Real.sqrt ((sum_squared_differences x y : ℚ) : ℝ)

/-- One iteration of the `KTDA._closest_index` scan. The accumulator holds
the best index so far (`-1` when none yet) and its distance, `none` standing
for the initial `math.inf`. The source compares the square roots of the sums
of squared differences; `Real.sqrt` is strictly monotone on nonnegative
reals, so comparing the radicands takes the same branch. -/
def closestStep (scores : List (List (Option ℚ))) (query : List (Option ℚ)) (q : ℕ)
    (acc : Int × Option ℚ) (i : ℕ) : Int × Option ℚ :=
  if i = q then acc
  else if has_missing (scores.getD i []) then acc
  else
    match acc.2 with
    | none => ((i : Int), some (sum_squared_differences (scores.getD i []) query))
    | some bd =>
        if sum_squared_differences (scores.getD i []) query < bd
        then ((i : Int), some (sum_squared_differences (scores.getD i []) query))
        else acc

/-- `KTDA._closest_index`: index of the closest other alternative with no
missing data, `-1` when no such alternative exists. -/
def KTDA.closest_index (t : KTDA) (q : ℕ) : Int :=
  ((List.range t.alternatives.length).foldl
    (closestStep t.scores (t.scores.getD q []) q) (-1, none)).1

/-- Python list indexing with a possibly negative index, as `scores[i]` is
used in `new_imputed_missing_scores`: a negative index counts from the end,
so `scores[-1]` is the last row. An out-of-range access raises in Python;
that case is unreachable here and falls back to the empty row. -/
def pyRow (scores : List (List (Option ℚ))) (i : Int) : List (Option ℚ) :=
  if i < 0 then scores.getD (scores.length - i.natAbs) [] else scores.getD i.toNat []

/-- The overwrite loop of `new_imputed_missing_scores`: a copy of the donor
row in which every position where the query row is known is assigned the
query's value. The source's index assignment is rendered pointwise; an
assignment past the donor's length cannot occur under the shape invariant. -/
def mergeRow : List (Option ℚ) → List (Option ℚ) → List (Option ℚ)
  | [], donor => donor
  | _ :: _, [] => []
  | x :: qs, d :: ds => (if x.isSome then x else d) :: mergeRow qs ds

/-- `KTDA.new_imputed_missing_scores`: rows with a missing value are replaced
by the merged copy of the row at `closest_index` (reached through Python
indexing, so `-1` aliases the last row); complete rows pass through. The
`distance` argument is accepted but, as in the source, never used. -/
def KTDA.new_imputed_missing_scores (t : KTDA)
    (distance : List (Option ℚ) → List (Option ℚ) → ℝ) : KTDA :=
  KTDA.mk t.criteria t.weights t.alternatives
    ((List.range t.alternatives.length).map (fun i =>
      if has_missing (t.scores.getD i []) then
        mergeRow (t.scores.getD i []) (pyRow t.scores (t.closest_index i))
      else t.scores.getD i []))

/-- The sensitivity loop of Figure 3, parameterised by the table and the
perturbation factors. As in the source, the recorded best alternative is
computed on the original table `t`; the construction of a table carrying the
perturbed weights is commented out in the source. -/
def sensitivity_analysis (t : KTDA) (factors : List ℚ) : List (String × ℚ × ℕ) :=
  (List.range t.criteria.length).foldr (fun c rest =>
    factors.map (fun f =>
      let nw := t.weights.set c (t.weights.getD c 0 * f)
      ((t.criteria.getD c ""), nw.getD c 0, 1 + t.best_alternative.getD 0)) ++ rest) []

/-- The sensitivity sweep as the specification words it: the recorded best
alternative is computed on a transient table carrying the perturbed weight
vector. -/
def sensitivity_analysis_spec (t : KTDA) (factors : List ℚ) : List (String × ℚ × ℕ) :=
  (List.range t.criteria.length).foldr (fun c rest =>
    factors.map (fun f =>
      let nw := t.weights.set c (t.weights.getD c 0 * f)
      ((t.criteria.getD c ""), nw.getD c 0,
        1 + (KTDA.mk t.criteria nw t.alternatives t.scores).best_alternative.getD 0)) ++ rest) []

/-- The shape invariant stated in the data model: weights align with
criteria and every score row aligns with the criteria count. -/
def WellFormed (t : KTDA) : Prop :=
  t.weights.length = t.criteria.length ∧
  t.scores.length = t.alternatives.length ∧
  ∀ r ∈ t.scores, r.length = t.criteria.length

instance (t : KTDA) : Decidable (WellFormed t) := by
  unfold WellFormed; infer_instance

/-- Position `i` carries a known value in both rows. -/
def jointly_known (x y : List (Option ℚ)) (i : ℕ) : Bool :=
  (x.getD i none).isSome && (y.getD i none).isSome

/-- The contribution of position `i` to the distance, as the specification
words it: the squared difference at a jointly known position, zero at a
position where either row is missing. -/
def sq_diff_at (x y : List (Option ℚ)) (i : ℕ) : ℚ :=
  if jointly_known x y i then ((x.getD i none).getD 0 - (y.getD i none).getD 0) ^ 2 else 0

lemma ssd_foldl_eq (x y : List (Option ℚ)) (l : List ℕ) (a : ℚ) :
    l.foldl (fun acc i =>
      match x.getD i none, y.getD i none with
      | some xx, some yy => acc + (xx - yy) * (xx - yy)
      | _, _ => acc) a = a + (l.map (sq_diff_at x y)).sum := by
  induction l generalizing a with
  | nil => simp
  | cons i l ih =>
      have hstep : (match x.getD i none, y.getD i none with
          | some xx, some yy => a + (xx - yy) * (xx - yy)
          | _, _ => a) = a + sq_diff_at x y i := by
        unfold sq_diff_at jointly_known
        cases hx : x.getD i none with
        | none => simp [hx]
        | some xx =>
            cases hy : y.getD i none with
            | none => simp [hx, hy]
            | some yy => simp [hx, hy]; ring
      simp only [List.foldl_cons, hstep, ih, List.map_cons, List.sum_cons]
      ring

lemma ssd_eq_sum (x y : List (Option ℚ)) :
    sum_squared_differences x y = ((List.range x.length).map (sq_diff_at x y)).sum := by
  unfold sum_squared_differences
  rw [ssd_foldl_eq]
  ring

lemma sq_diff_at_nonneg (x y : List (Option ℚ)) (i : ℕ) : 0 ≤ sq_diff_at x y i := by
  unfold sq_diff_at
  split
  · positivity
  · exact le_refl 0

lemma ssd_nonneg (x y : List (Option ℚ)) : 0 ≤ sum_squared_differences x y := by
  rw [ssd_eq_sum]
  apply List.sum_nonneg
  intro z hz
  rcases List.mem_map.mp hz with ⟨i, _, rfl⟩
  exact sq_diff_at_nonneg x y i

lemma sq_diff_at_symm (x y : List (Option ℚ)) (i : ℕ) :
    sq_diff_at x y i = sq_diff_at y x i := by
  unfold sq_diff_at jointly_known
  cases hx : x.getD i none <;> cases hy : y.getD i none <;> simp [hx, hy] <;> ring

/-- C3: the distance equals the square root of the sum of squared differences
taken over exactly the jointly known positions (positions where either row is
missing contribute zero), and when no position is jointly known the distance
is `0`. -/
theorem euclidean_distance_formula (x y : List (Option ℚ)) (h : x.length = y.length) :
    euclidean_distance x y =
      Real.sqrt ((((List.range x.length).map (sq_diff_at x y)).sum : ℚ) : ℝ) ∧
    ((∀ i < x.length, jointly_known x y i = false) → euclidean_distance x y = 0) := by
  constructor
  · rw [euclidean_distance, ssd_eq_sum]
  · intro hall
    have hz : sum_squared_differences x y = 0 := by
      rw [ssd_eq_sum]
      apply List.sum_eq_zero
      intro z hz
      rcases List.mem_map.mp hz with ⟨i, hi, rfl⟩
      have hi2 : i < x.length := List.mem_range.mp hi
      unfold sq_diff_at
      rw [hall i hi2]
      simp
    rw [euclidean_distance, hz]
    simp

/-- Closed instance of `euclidean_distance_formula`. -/
theorem euclidean_distance_formula_witness :
    ([some (1 : ℚ), none].length = [some (3 : ℚ), some 4].length) ∧
    (euclidean_distance [some (1 : ℚ), none] [some (3 : ℚ), some 4] =
      Real.sqrt ((((List.range ([some (1 : ℚ), none].length)).map
        (sq_diff_at [some (1 : ℚ), none] [some (3 : ℚ), some 4])).sum : ℚ) : ℝ) ∧
    ((∀ i < [some (1 : ℚ), none].length,
        jointly_known [some (1 : ℚ), none] [some (3 : ℚ), some 4] i = false) →
      euclidean_distance [some (1 : ℚ), none] [some (3 : ℚ), some 4] = 0)) :=
  ⟨rfl, euclidean_distance_formula [some 1, none] [some 3, some 4] rfl⟩

/-- C9: the distance is symmetric on equal-length rows, missing values
included. -/
theorem euclidean_distance_symm (x y : List (Option ℚ)) (h : x.length = y.length) :
    euclidean_distance x y = euclidean_distance y x := by
  unfold euclidean_distance
  have : sum_squared_differences x y = sum_squared_differences y x := by
    rw [ssd_eq_sum, ssd_eq_sum, h]
    exact congrArg List.sum (List.map_congr_left (fun i _ => sq_diff_at_symm x y i))
  rw [this]

/-- Closed instance of `euclidean_distance_symm`. -/
theorem euclidean_distance_symm_witness :
    ([some (1 : ℚ), none].length = [none, some (4 : ℚ)].length) ∧
    euclidean_distance [some (1 : ℚ), none] [none, some (4 : ℚ)] =
      euclidean_distance [none, some (4 : ℚ)] [some (1 : ℚ), none] :=
  ⟨rfl, euclidean_distance_symm [some 1, none] [none, some 4] rfl⟩

lemma mapM_loop_eq_map {α β : Type} (f : α → Option β) (g : α → β)
    (hf : ∀ a, f a = some (g a)) (l : List α) : ∀ acc : List β,
    List.mapM.loop f l acc = some (acc.reverse ++ l.map g) := by
  induction l with
  | nil => intro acc; simp [List.mapM.loop]
  | cons a l ih => intro acc; simp [List.mapM.loop, hf a, ih]

lemma mapM_eq_map {α β : Type} (f : α → Option β) (g : α → β)
    (hf : ∀ a, f a = some (g a)) (l : List α) : l.mapM f = some (l.map g) := by
  simpa [List.mapM] using mapM_loop_eq_map f g hf l []

lemma mapM_cons_none {α β : Type} (f : α → Option β) (x : α) (l : List α)
    (hx : f x = none) : (x :: l).mapM f = none := by
  simp [List.mapM, List.mapM.loop, hx]

/-- `new_normalized` unfolded to its two fallible maps, weights first. -/
lemma new_normalized_eq (t : KTDA) (S : ℚ) :
    t.new_normalized S =
      (t.weights.mapM (fun x => pyDiv (100 * x) t.weights.sum)).bind (fun nw =>
        (t.scores.mapM (fun row : List (Option ℚ) => row.mapM (divCell S))).bind (fun ns =>
          some (KTDA.mk t.criteria nw t.alternatives ns))) := rfl

lemma sum_map_scale (l : List ℚ) (s : ℚ) :
    (l.map (fun x => 100 * x / s)).sum = 100 * l.sum / s := by
  induction l with
  | nil => simp
  | cons x l ih =>
      simp only [List.map_cons, List.sum_cons, ih]
      ring

/-- A two-criteria table on which perturbing the first weight by factor `2`
changes the best alternative: totals are `10` and `11` originally, `20` and
`11` under the perturbed weights. -/
def tflip : KTDA :=
  KTDA.mk ["c0", "c1"] [1, 1] ["A", "B"] [[some 10, some 0], [some 0, some 11]]

/-- A table in which every row has a missing first score, so no complete
donor row exists. -/
def t4 : KTDA := KTDA.mk ["c0", "c1"] [1, 1] ["A", "B"] [[none, some 1], [none, some 2]]

/-- A table with an empty criteria/weights dimension: its weight sum is `0`
yet normalization never divides because the mapped function is not applied. -/
def t6 : KTDA := KTDA.mk [] [] ["A"] [[]]

/-- A one-row table with nonzero weight sum, used for the `max_score = 0`
counterexample and the normalization witness. -/
def t7 : KTDA := KTDA.mk ["a", "b"] [1, 0] ["A"] [[some 1, some 2]]

/-- Total weighted score of a two-criteria table at a fully known row. -/
lemma total_two (n0 n1 : String) (w0 w1 : ℚ) (als : List String)
    (rows : List (List (Option ℚ))) (a : ℕ) (r0 r1 : ℚ)
    (hrow : rows[a]?.getD [] = [some r0, some r1]) :
    (KTDA.mk [n0, n1] [w0, w1] als rows).total_weighted_score a =
      some (w0 * r0 + w1 * r1) := by
  simp [KTDA.total_weighted_score, KTDA.weighted_score, hrow, optAdd,
    List.range_succ]

/-- `argmax` on a two-element sequence of known values keeps the first index
unless the second value is strictly larger. -/
lemma argmax_two (x y : ℚ) :
    argmax [some x, some y] = some (if x < y then 1 else 0) := by
  simp only [argmax, List.isEmpty_cons, List.length_cons, List.length_nil,
    List.range_succ, List.range_zero]
  by_cases h : x < y
  · simp [pyGt, h]
  · simp [pyGt, h, lt_irrefl]

/-- `best_alternative` of a two-alternative table reduces to `argmax` of the
two totals. -/
lemma best_alternative_two (cs : List String) (ws : List ℚ) (a0 a1 : String)
    (rows : List (List (Option ℚ))) :
    (KTDA.mk cs ws [a0, a1] rows).best_alternative =
      argmax [(KTDA.mk cs ws [a0, a1] rows).total_weighted_score 0,
              (KTDA.mk cs ws [a0, a1] rows).total_weighted_score 1] := by
  simp [KTDA.best_alternative, List.range_succ]

/-- A distance argument for the imputation calls; the source passes
`euclidean_distance`, but the argument is never used. -/
def dZero : List (Option ℚ) → List (Option ℚ) → ℝ := fun _ _ => 0

/-- C1: the sensitivity driver computes the recorded best alternative on the
original table, not on the perturbed one. On `tflip` with factor `2` the
driver records display index `2` for criterion `0`, while the sweep the
specification describes yields `1` there; the two agree on criterion `1`. -/
theorem sensitivity_records_original_best :
    sensitivity_analysis tflip [2] = [("c0", 2, 2), ("c1", 2, 2)] ∧
    sensitivity_analysis_spec tflip [2] = [("c0", 2, 1), ("c1", 2, 2)] := by
  have hb : (KTDA.mk ["c0", "c1"] [1, 1] ["A", "B"]
      [[some 10, some 0], [some 0, some 11]]).best_alternative = some 1 := by
    rw [best_alternative_two,
      total_two "c0" "c1" 1 1 ["A", "B"] [[some 10, some 0], [some 0, some 11]] 0 10 0 rfl,
      total_two "c0" "c1" 1 1 ["A", "B"] [[some 10, some 0], [some 0, some 11]] 1 0 11 rfl,
      argmax_two]
    norm_num
  have hb0 : (KTDA.mk ["c0", "c1"] [2, 1] ["A", "B"]
      [[some 10, some 0], [some 0, some 11]]).best_alternative = some 0 := by
    rw [best_alternative_two,
      total_two "c0" "c1" 2 1 ["A", "B"] [[some 10, some 0], [some 0, some 11]] 0 10 0 rfl,
      total_two "c0" "c1" 2 1 ["A", "B"] [[some 10, some 0], [some 0, some 11]] 1 0 11 rfl,
      argmax_two]
    norm_num
  have hb1 : (KTDA.mk ["c0", "c1"] [1, 2] ["A", "B"]
      [[some 10, some 0], [some 0, some 11]]).best_alternative = some 1 := by
    rw [best_alternative_two,
      total_two "c0" "c1" 1 2 ["A", "B"] [[some 10, some 0], [some 0, some 11]] 0 10 0 rfl,
      total_two "c0" "c1" 1 2 ["A", "B"] [[some 10, some 0], [some 0, some 11]] 1 0 11 rfl,
      argmax_two]
    norm_num
  constructor
  · simp [sensitivity_analysis, tflip, List.range_succ, hb]
  · simp [sensitivity_analysis_spec, tflip, List.range_succ, hb, hb0, hb1]

/-- C4: when every row has a missing value, `_closest_index` returns `-1`,
Python indexing turns that into the LAST row as donor, and the imputed table
is returned with rows that still contain missing values — no error, no
signal. -/
theorem imputation_silent_on_no_complete_row :
    (∀ r ∈ t4.scores, has_missing r = true) ∧
    (t4.closest_index 0 = -1 ∧ t4.closest_index 1 = -1) ∧
    (t4.new_imputed_missing_scores dZero).scores = [[none, some 1], [none, some 2]] ∧
    has_missing ((t4.new_imputed_missing_scores dZero).scores.getD 0 []) = true := by
  refine ⟨by decide, ⟨by decide, by decide⟩, ?_, by decide⟩
  decide

/-- C5 counterexample: constructing a table whose weights are shorter than
its criteria succeeds and stores the mismatched sequences as given. -/
theorem mk_accepts_mismatched_shapes :
    (KTDA.mk ["a", "b"] [1] ["A"] [[some 1]]).criteria = ["a", "b"] ∧
    (KTDA.mk ["a", "b"] [1] ["A"] [[some 1]]).weights = [1] ∧
    (KTDA.mk ["a", "b"] [1] ["A"] [[some 1]]).weights.length ≠
      (KTDA.mk ["a", "b"] [1] ["A"] [[some 1]]).criteria.length := by
  refine ⟨rfl, rfl, by decide⟩

/-- C5 amended: construction performs no validation at all — the four
sequences are stored exactly as given, so nothing is truncated or padded and
no shape mismatch is detected. -/
theorem mk_stores_fields_verbatim (c : List String) (w : List ℚ)
    (al : List String) (s : List (List (Option ℚ))) :
    (KTDA.mk c w al s).criteria = c ∧ (KTDA.mk c w al s).weights = w ∧
    (KTDA.mk c w al s).alternatives = al ∧ (KTDA.mk c w al s).scores = s :=
  ⟨rfl, rfl, rfl, rfl⟩

/-- C6 counterexample: the empty-weights table has weight sum `0`, yet
normalization returns a table instead of raising — the division is never
executed on an empty sequence. -/
theorem normalized_zero_sum_empty_weights_no_error :
    t6.weights.sum = 0 ∧ (t6.new_normalized 10).isSome = true := by
  constructor
  · simp [t6]
  · rfl

/-- C6 amended: for every table with a NONEMPTY weight sequence summing to
zero, normalization raises (Python's `ZeroDivisionError`, modelled `none`)
instead of returning a table. -/
theorem normalized_zero_sum_raises (t : KTDA) (h0 : t.weights.sum = 0)
    (hne : t.weights ≠ []) (S : ℚ) : t.new_normalized S = none := by
  obtain ⟨x, l, hxl⟩ := List.exists_cons_of_ne_nil hne
  have hx : pyDiv (100 * x) t.weights.sum = none := by
    rw [h0]; simp [pyDiv]
  have hmap : t.weights.mapM (fun w => pyDiv (100 * w) t.weights.sum) = none := by
    have h2 := mapM_cons_none (fun w => pyDiv (100 * w) t.weights.sum) x l hx
    rw [← hxl] at h2
    exact h2
  rw [new_normalized_eq, hmap]
  rfl

/-- Closed instance of `normalized_zero_sum_raises`. -/
theorem normalized_zero_sum_raises_witness :
    (KTDA.mk ["a"] [0] [] []).weights.sum = 0 ∧
    (KTDA.mk ["a"] [0] [] []).weights ≠ [] ∧
    (KTDA.mk ["a"] [0] [] []).new_normalized 10 = none :=
  ⟨by simp, by decide, normalized_zero_sum_raises (KTDA.mk ["a"] [0] [] [])
    (by simp) (by decide) 10⟩

/-- C7 counterexample: with `max_score = 0` and a nonzero weight sum,
normalization raises (float division by zero on the first score cell)
instead of returning a table whose cells are the originals divided by `0`. -/
theorem normalized_zero_max_score_no_table :
    t7.weights.sum ≠ 0 ∧ t7.new_normalized 0 = none := by
  have hsum : t7.weights.sum = 1 := by simp [t7]
  constructor
  · rw [hsum]; exact one_ne_zero
  · have hrow : ([some (1 : ℚ), some 2] : List (Option ℚ)).mapM (divCell 0) = none :=
      mapM_cons_none _ _ _ (by simp [divCell])
    have hscores : t7.scores.mapM (fun row => row.mapM (divCell 0)) = none := by
      have h2 := mapM_cons_none
        (fun row : List (Option ℚ) => row.mapM (divCell 0)) [some 1, some 2] [] hrow
      exact h2
    have hwm : t7.weights.mapM (fun x => pyDiv (100 * x) t7.weights.sum) =
        some (t7.weights.map (fun x => 100 * x / t7.weights.sum)) :=
      mapM_eq_map _ _ (fun a => by simp [pyDiv, hsum]) _
    rw [new_normalized_eq, hwm]
    show (t7.scores.mapM (fun row : List (Option ℚ) => row.mapM (divCell 0))).bind
      (fun ns => some (KTDA.mk t7.criteria
        (t7.weights.map (fun x => 100 * x / t7.weights.sum)) t7.alternatives ns)) = none
    rw [hscores]
    rfl

/-- C7 amended: for a nonzero weight sum and a NONZERO caller-supplied
`max_score`, normalization returns a table with weights `100*w/sum(w)`
(summing exactly to 100), every score cell divided by `max_score` with
missing cells staying missing, and criteria and alternative names
unchanged. -/
theorem new_normalized_spec (t : KTDA) (S : ℚ) (hw : t.weights.sum ≠ 0) (hS : S ≠ 0) :
    ∃ t2, t.new_normalized S = some t2 ∧
      t2.criteria = t.criteria ∧
      t2.alternatives = t.alternatives ∧
      t2.weights = t.weights.map (fun x => 100 * x / t.weights.sum) ∧
      t2.weights.sum = 100 ∧
      t2.scores = t.scores.map (fun row => row.map (Option.map (fun x => x / S))) := by
  have hwmap : t.weights.mapM (fun w => pyDiv (100 * w) t.weights.sum) =
      some (t.weights.map (fun x => 100 * x / t.weights.sum)) := by
    apply mapM_eq_map
    intro a
    simp [pyDiv, hw]
  have hcell : ∀ c : Option ℚ, divCell S c = some (c.map (fun x => x / S)) := by
    intro c
    simp [divCell, hS]
  have hsmap : t.scores.mapM (fun row => row.mapM (divCell S)) =
      some (t.scores.map (fun row => row.map (Option.map (fun x => x / S)))) := by
    apply mapM_eq_map
    intro row
    exact mapM_eq_map _ _ hcell row
  refine ⟨KTDA.mk t.criteria (t.weights.map (fun x => 100 * x / t.weights.sum))
    t.alternatives (t.scores.map (fun row => row.map (Option.map (fun x => x / S)))),
    ?_, rfl, rfl, rfl, ?_, rfl⟩
  · rw [new_normalized_eq, hwmap]
    show (t.scores.mapM (fun row : List (Option ℚ) => row.mapM (divCell S))).bind _ =
      some (KTDA.mk t.criteria (t.weights.map (fun x => 100 * x / t.weights.sum))
        t.alternatives (t.scores.map (fun row => row.map (Option.map (fun x => x / S)))))
    rw [hsmap]
    rfl
  · show (t.weights.map (fun x => 100 * x / t.weights.sum)).sum = 100
    rw [sum_map_scale, mul_div_assoc, div_self hw, mul_one]

/-- Closed instance of `new_normalized_spec`. -/
theorem new_normalized_spec_witness :
    t7.weights.sum ≠ 0 ∧ (10 : ℚ) ≠ 0 ∧
    (∃ t2, t7.new_normalized 10 = some t2 ∧
      t2.criteria = t7.criteria ∧
      t2.alternatives = t7.alternatives ∧
      t2.weights = t7.weights.map (fun x => 100 * x / t7.weights.sum) ∧
      t2.weights.sum = 100 ∧
      t2.scores = t7.scores.map (fun row => row.map (Option.map (fun x => x / 10)))) :=
  ⟨by simp [t7], by simp, new_normalized_spec t7 10 (by simp [t7]) (by simp)⟩

/-- C10: the `distance` argument of `new_imputed_missing_scores` is dead —
the nearest-neighbour search always calls the module-level
`euclidean_distance`, so any two distance arguments produce identical
scores. -/
theorem imputation_ignores_distance_argument (t : KTDA)
    (d1 d2 : List (Option ℚ) → List (Option ℚ) → ℝ) :
    (t.new_imputed_missing_scores d1).scores = (t.new_imputed_missing_scores d2).scores := rfl

/-- The fold inside `argmax`, cut at the first `n` indices. -/
def argmaxFold (seq : List (Option ℚ)) (n : ℕ) : ℕ :=
  (List.range n).foldl
    (fun b i => if pyGt (seq.getD i none) (seq.getD b none) then i else b) 0

lemma argmax_eq_fold (seq : List (Option ℚ)) (hne : seq ≠ []) :
    argmax seq = some (argmaxFold seq seq.length) := by
  cases seq with
  | nil => exact absurd rfl hne
  | cons a l => simp [argmax, argmaxFold]

lemma argmaxFold_succ (seq : List (Option ℚ)) (n : ℕ) :
    argmaxFold seq (n + 1) =
      if pyGt (seq.getD n none) (seq.getD (argmaxFold seq n) none)
      then n else argmaxFold seq n := by
  unfold argmaxFold
  rw [List.range_succ, List.foldl_append, List.foldl_cons, List.foldl_nil]

lemma argmaxFold_spec (seq : List (Option ℚ))
    (hall : ∀ i, i < seq.length → (seq.getD i none).isSome = true) :
    ∀ n, 0 < n → n ≤ seq.length →
      argmaxFold seq n < n ∧
      (∀ i, i < n →
        (seq.getD i none).getD 0 ≤ (seq.getD (argmaxFold seq n) none).getD 0) ∧
      (∀ i, i < argmaxFold seq n →
        (seq.getD i none).getD 0 < (seq.getD (argmaxFold seq n) none).getD 0) := by
  intro n
  induction n with
  | zero => intro h; exact absurd h (lt_irrefl 0)
  | succ n ih =>
      intro _ hle
      by_cases hn : n = 0
      · subst hn
        have h1 : argmaxFold seq 1 = 0 := by
          simp [argmaxFold, List.range_succ]
        rw [h1]
        refine ⟨Nat.one_pos, ?_, ?_⟩
        · intro i hi
          interval_cases i
          exact le_refl _
        · intro i hi
          exact absurd hi (Nat.not_lt_zero i)
      · have hn1 : 0 < n := Nat.pos_of_ne_zero hn
        have hnle : n ≤ seq.length := le_trans (Nat.le_succ n) hle
        obtain ⟨hb, hmax, hstrict⟩ := ih hn1 hnle
        obtain ⟨vb, hvb⟩ := Option.isSome_iff_exists.mp
          (hall (argmaxFold seq n) (lt_of_lt_of_le hb hnle))
        obtain ⟨vn, hvn⟩ := Option.isSome_iff_exists.mp
          (hall n (lt_of_lt_of_le (Nat.lt_succ_self n) hle))
        by_cases hlt : vb < vn
        · have hres : argmaxFold seq (n + 1) = n := by
            rw [argmaxFold_succ, hvb, hvn]
            simp [pyGt, hlt]
          rw [hres]
          refine ⟨Nat.lt_succ_self n, ?_, ?_⟩
          · intro i hi
            rcases Nat.lt_succ_iff_lt_or_eq.mp hi with hi2 | rfl
            · calc (seq.getD i none).getD 0
                  ≤ (seq.getD (argmaxFold seq n) none).getD 0 := hmax i hi2
                _ ≤ (seq.getD n none).getD 0 := by
                    rw [hvb, hvn]; exact le_of_lt hlt
            · exact le_refl _
          · intro i hi
            calc (seq.getD i none).getD 0
                ≤ (seq.getD (argmaxFold seq n) none).getD 0 := hmax i hi
              _ < (seq.getD n none).getD 0 := by
                  rw [hvb, hvn]; exact hlt
        · have hres : argmaxFold seq (n + 1) = argmaxFold seq n := by
            rw [argmaxFold_succ, hvb, hvn]
            simp [pyGt, hlt]
          rw [hres]
          refine ⟨lt_trans hb (Nat.lt_succ_self n), ?_, hstrict⟩
          intro i hi
          rcases Nat.lt_succ_iff_lt_or_eq.mp hi with hi2 | rfl
          · exact hmax i hi2
          · rw [hvb, hvn]
            exact le_of_not_lt hlt

lemma getD_map_range {β : Type} (f : ℕ → β) (n a : ℕ) (h : a < n) (d : β) :
    ((List.range n).map f).getD a d = f a := by
  rw [List.getD_eq_getElem?_getD, List.getElem?_map, List.getElem?_range h]
  rfl

/-- `argmax` of a nonempty sequence of known values returns the first index
attaining the maximum. -/
lemma argmax_spec (seq : List (Option ℚ)) (hne : seq ≠ [])
    (hall : ∀ i, i < seq.length → (seq.getD i none).isSome = true) :
    ∃ b, argmax seq = some b ∧ b < seq.length ∧
      (∀ i, i < seq.length →
        (seq.getD i none).getD 0 ≤ (seq.getD b none).getD 0) ∧
      (∀ i, i < b → (seq.getD i none).getD 0 < (seq.getD b none).getD 0) := by
  have hpos : 0 < seq.length := List.length_pos.mpr hne
  obtain ⟨hb, hmax, hstrict⟩ := argmaxFold_spec seq hall seq.length hpos le_rfl
  exact ⟨argmaxFold seq seq.length, argmax_eq_fold seq hne, hb, hmax, hstrict⟩

lemma foldl_optAdd_none (l : List ℕ) (f : ℕ → Option ℚ) :
    l.foldl (fun acc c => optAdd acc (f c)) none = none := by
  induction l with
  | nil => rfl
  | cons c l ih =>
      have h0 : optAdd none (f c) = none := by cases f c <;> rfl
      rw [List.foldl_cons, h0, ih]

lemma foldl_optAdd_isSome (l : List ℕ) (f : ℕ → Option ℚ) (s : ℚ)
    (h : (l.foldl (fun acc c => optAdd acc (f c)) (some s)).isSome = true) :
    ∀ c ∈ l, (f c).isSome = true := by
  induction l generalizing s with
  | nil => intro c hc; exact absurd hc (List.not_mem_nil c)
  | cons c0 l ih =>
      intro c hc
      rw [List.foldl_cons] at h
      cases hf : f c0 with
      | none =>
          rw [hf] at h
          have : optAdd (some s) none = none := rfl
          rw [this, foldl_optAdd_none] at h
          exact absurd h (by simp)
      | some v =>
          rcases List.mem_cons.mp hc with rfl | hc2
          · rw [hf]; rfl
          · rw [hf] at h
            exact ih (s + v) h c hc2

lemma foldl_optAdd_eq_sum (l : List ℕ) (f : ℕ → Option ℚ)
    (h : ∀ c ∈ l, (f c).isSome = true) (s : ℚ) :
    l.foldl (fun acc c => optAdd acc (f c)) (some s) =
      some (s + (l.map (fun c => (f c).getD 0)).sum) := by
  induction l generalizing s with
  | nil => simp
  | cons c0 l ih =>
      obtain ⟨v, hv⟩ := Option.isSome_iff_exists.mp (h c0 (List.mem_cons_self c0 l))
      rw [List.foldl_cons, hv]
      have hstep : optAdd (some s) (some v) = some (s + v) := rfl
      rw [hstep, ih (fun c hc => h c (List.mem_cons_of_mem c0 hc))]
      rw [List.map_cons, List.sum_cons, hv]
      simp [add_assoc]

/-- A known total weighted score is the mathematical sum over all criteria
of `weights[c] * scores[a][c]`. -/
lemma total_eq_sum (t : KTDA) (a : ℕ)
    (h : (t.total_weighted_score a).isSome = true) :
    t.total_weighted_score a =
      some (((List.range t.criteria.length).map
        (fun c => t.weights.getD c 0 * ((t.scores.getD a []).getD c none).getD 0)).sum) := by
  unfold KTDA.total_weighted_score at h ⊢
  have hterms := foldl_optAdd_isSome _ _ _ h
  have hpt : ∀ c ∈ List.range t.criteria.length,
      (t.weighted_score a c).getD 0 =
        t.weights.getD c 0 * ((t.scores.getD a []).getD c none).getD 0 := by
    intro c hc
    unfold KTDA.weighted_score
    cases (t.scores.getD a []).getD c none with
    | none => simp
    | some v => rfl
  rw [foldl_optAdd_eq_sum _ _ hterms, zero_add]
  exact congrArg (fun z => some z) (congrArg List.sum (List.map_congr_left hpt))

/-- C8: with at least one alternative and no missing totals,
`best_alternative` returns the first index attaining the maximal total
weighted score, the total being the sum over criteria of
`weights[c] * scores[a][c]`. -/
theorem best_alternative_spec (t : KTDA) (hM : t.alternatives ≠ [])
    (hknown : ∀ a, a < t.alternatives.length →
      (t.total_weighted_score a).isSome = true) :
    ∃ b, t.best_alternative = some b ∧ b < t.alternatives.length ∧
      (∀ a, a < t.alternatives.length →
        (t.total_weighted_score a).getD 0 ≤ (t.total_weighted_score b).getD 0) ∧
      (∀ a, a < b →
        (t.total_weighted_score a).getD 0 < (t.total_weighted_score b).getD 0) ∧
      (∀ a, a < t.alternatives.length → t.total_weighted_score a =
        some (((List.range t.criteria.length).map
          (fun c => t.weights.getD c 0 *
            ((t.scores.getD a []).getD c none).getD 0)).sum)) := by
  have hlen : ((List.range t.alternatives.length).map t.total_weighted_score).length =
      t.alternatives.length := by simp
  have hget : ∀ a, a < t.alternatives.length →
      ((List.range t.alternatives.length).map t.total_weighted_score).getD a none =
        t.total_weighted_score a := by
    intro a ha
    exact getD_map_range t.total_weighted_score t.alternatives.length a ha none
  have hne : ((List.range t.alternatives.length).map t.total_weighted_score) ≠ [] := by
    apply List.ne_nil_of_length_pos
    rw [hlen]
    exact List.length_pos.mpr hM
  have hall : ∀ i, i < ((List.range t.alternatives.length).map t.total_weighted_score).length →
      (((List.range t.alternatives.length).map t.total_weighted_score).getD i none).isSome
        = true := by
    intro i hi
    rw [hlen] at hi
    rw [hget i hi]
    exact hknown i hi
  obtain ⟨b, hbeq, hb, hmax, hstrict⟩ := argmax_spec _ hne hall
  rw [hlen] at hb
  refine ⟨b, ?_, hb, ?_, ?_, fun a ha => total_eq_sum t a (hknown a ha)⟩
  · show argmax ((List.range t.alternatives.length).map t.total_weighted_score) = some b
    exact hbeq
  · intro a ha
    have h2 := hmax a (lt_of_lt_of_eq ha hlen.symm)
    rwa [hget a ha, hget b hb] at h2
  · intro a ha
    have h2 := hstrict a ha
    rwa [hget a (lt_trans ha hb), hget b hb] at h2

/-- Closed instance of `best_alternative_spec`, at a table with a tie: both
alternatives total `1`, so the lower index must win. -/
theorem best_alternative_spec_witness :
    ((KTDA.mk ["a"] [1] ["A", "B"] [[some 1], [some 1]]).alternatives ≠ []) ∧
    (∀ a, a < (KTDA.mk ["a"] [1] ["A", "B"] [[some 1], [some 1]]).alternatives.length →
      ((KTDA.mk ["a"] [1] ["A", "B"] [[some 1], [some 1]]).total_weighted_score a).isSome
        = true) ∧
    (∃ b, (KTDA.mk ["a"] [1] ["A", "B"] [[some 1], [some 1]]).best_alternative = some b ∧
      b < (KTDA.mk ["a"] [1] ["A", "B"] [[some 1], [some 1]]).alternatives.length ∧
      (∀ a, a < (KTDA.mk ["a"] [1] ["A", "B"] [[some 1], [some 1]]).alternatives.length →
        ((KTDA.mk ["a"] [1] ["A", "B"] [[some 1], [some 1]]).total_weighted_score a).getD 0 ≤
        ((KTDA.mk ["a"] [1] ["A", "B"] [[some 1], [some 1]]).total_weighted_score b).getD 0) ∧
      (∀ a, a < b →
        ((KTDA.mk ["a"] [1] ["A", "B"] [[some 1], [some 1]]).total_weighted_score a).getD 0 <
        ((KTDA.mk ["a"] [1] ["A", "B"] [[some 1], [some 1]]).total_weighted_score b).getD 0) ∧
      (∀ a, a < (KTDA.mk ["a"] [1] ["A", "B"] [[some 1], [some 1]]).alternatives.length →
        (KTDA.mk ["a"] [1] ["A", "B"] [[some 1], [some 1]]).total_weighted_score a =
        some (((List.range
            (KTDA.mk ["a"] [1] ["A", "B"] [[some 1], [some 1]]).criteria.length).map
          (fun c => (KTDA.mk ["a"] [1] ["A", "B"] [[some 1], [some 1]]).weights.getD c 0 *
            (((KTDA.mk ["a"] [1] ["A", "B"] [[some 1], [some 1]]).scores.getD a []).getD
              c none).getD 0)).sum))) :=
  ⟨by decide,
   by
    intro a ha
    have ha2 : a < 2 := by simpa using ha
    interval_cases a <;>
      simp [KTDA.total_weighted_score, KTDA.weighted_score, optAdd, List.range_succ],
   best_alternative_spec (KTDA.mk ["a"] [1] ["A", "B"] [[some 1], [some 1]])
     (by decide)
     (by
      intro a ha
      have ha2 : a < 2 := by simpa using ha
      interval_cases a <;>
        simp [KTDA.total_weighted_score, KTDA.weighted_score, optAdd, List.range_succ])⟩

/-- A candidate of the `_closest_index` scan: another alternative whose row
is complete. -/
def ValidCand (scores : List (List (Option ℚ))) (q i : ℕ) : Prop :=
  i ≠ q ∧ has_missing (scores.getD i []) = false

/-- The `_closest_index` fold cut at the first `n` alternatives. -/
def closestFold (scores : List (List (Option ℚ))) (query : List (Option ℚ))
    (q n : ℕ) : Int × Option ℚ :=
  (List.range n).foldl (closestStep scores query q) (-1, none)

lemma closestFold_succ (scores : List (List (Option ℚ))) (query : List (Option ℚ))
    (q n : ℕ) :
    closestFold scores query q (n + 1) =
      closestStep scores query q (closestFold scores query q n) n := by
  unfold closestFold
  rw [List.range_succ, List.foldl_append, List.foldl_cons, List.foldl_nil]

lemma closestFold_spec (scores : List (List (Option ℚ))) (query : List (Option ℚ))
    (q : ℕ) : ∀ n,
    (closestFold scores query q n = (-1, none) ∧
      ∀ i, i < n → ¬ValidCand scores q i) ∨
    (∃ j, j < n ∧ ValidCand scores q j ∧
      closestFold scores query q n =
        ((j : Int), some (sum_squared_differences (scores.getD j []) query)) ∧
      (∀ i, i < n → ValidCand scores q i →
        sum_squared_differences (scores.getD j []) query ≤
          sum_squared_differences (scores.getD i []) query) ∧
      (∀ i, i < j → ValidCand scores q i →
        sum_squared_differences (scores.getD j []) query <
          sum_squared_differences (scores.getD i []) query)) := by
  intro n
  induction n with
  | zero =>
      left
      exact ⟨rfl, fun i hi => absurd hi (Nat.not_lt_zero i)⟩
  | succ n ih =>
      by_cases hq : n = q
      · have hid : ∀ acc, closestStep scores query q acc n = acc := by
          intro acc; unfold closestStep; rw [if_pos hq]
        rcases ih with ⟨heq, hnone⟩ | ⟨j, hj, hv, heq, hmin, hstrict⟩
        · left
          refine ⟨by rw [closestFold_succ, hid, heq], ?_⟩
          intro i hi
          rcases Nat.lt_succ_iff_lt_or_eq.mp hi with hi2 | rfl
          · exact hnone i hi2
          · exact fun hvi => hvi.1 hq
        · right
          refine ⟨j, lt_trans hj (Nat.lt_succ_self n), hv,
            by rw [closestFold_succ, hid, heq], ?_, hstrict⟩
          intro i hi hvi
          rcases Nat.lt_succ_iff_lt_or_eq.mp hi with hi2 | rfl
          · exact hmin i hi2 hvi
          · exact absurd hq hvi.1
      · by_cases hm : has_missing (scores.getD n []) = true
        · have hid : ∀ acc, closestStep scores query q acc n = acc := by
            intro acc; unfold closestStep; rw [if_neg hq, if_pos hm]
          rcases ih with ⟨heq, hnone⟩ | ⟨j, hj, hv, heq, hmin, hstrict⟩
          · left
            refine ⟨by rw [closestFold_succ, hid, heq], ?_⟩
            intro i hi
            rcases Nat.lt_succ_iff_lt_or_eq.mp hi with hi2 | rfl
            · exact hnone i hi2
            · exact fun hvi => by rw [hvi.2] at hm; exact Bool.false_ne_true hm
          · right
            refine ⟨j, lt_trans hj (Nat.lt_succ_self n), hv,
              by rw [closestFold_succ, hid, heq], ?_, hstrict⟩
            intro i hi hvi
            rcases Nat.lt_succ_iff_lt_or_eq.mp hi with hi2 | rfl
            · exact hmin i hi2 hvi
            · rw [hvi.2] at hm; exact absurd hm (Bool.false_ne_true)
        · rw [Bool.not_eq_true] at hm
          have hvn : ValidCand scores q n := ⟨hq, hm⟩
          rcases ih with ⟨heq, hnone⟩ | ⟨j, hj, hv, heq, hmin, hstrict⟩
          · right
            have hstep : closestStep scores query q (-1, none) n =
                ((n : Int), some (sum_squared_differences (scores.getD n []) query)) := by
              unfold closestStep
              rw [if_neg hq]
              rw [hm]
              simp
            refine ⟨n, Nat.lt_succ_self n, hvn,
              by rw [closestFold_succ, heq, hstep], ?_, ?_⟩
            · intro i hi hvi
              rcases Nat.lt_succ_iff_lt_or_eq.mp hi with hi2 | rfl
              · exact absurd hvi (hnone i hi2)
              · exact le_refl _
            · intro i hi hvi
              exact absurd hvi (hnone i hi)
          · by_cases hlt : sum_squared_differences (scores.getD n []) query <
                sum_squared_differences (scores.getD j []) query
            · right
              have hstep : closestStep scores query q
                  ((j : Int), some (sum_squared_differences (scores.getD j []) query)) n =
                  ((n : Int), some (sum_squared_differences (scores.getD n []) query)) := by
                unfold closestStep
                rw [if_neg hq]
                simp only [hm, Bool.false_eq_true, if_false]
                rw [if_pos hlt]
              refine ⟨n, Nat.lt_succ_self n, hvn,
                by rw [closestFold_succ, heq, hstep], ?_, ?_⟩
              · intro i hi hvi
                rcases Nat.lt_succ_iff_lt_or_eq.mp hi with hi2 | rfl
                · exact le_of_lt (lt_of_lt_of_le hlt (hmin i hi2 hvi))
                · exact le_refl _
              · intro i hi hvi
                exact lt_of_lt_of_le hlt (hmin i hi hvi)
            · right
              have hstep : closestStep scores query q
                  ((j : Int), some (sum_squared_differences (scores.getD j []) query)) n =
                  ((j : Int), some (sum_squared_differences (scores.getD j []) query)) := by
                unfold closestStep
                rw [if_neg hq]
                simp only [hm, Bool.false_eq_true, if_false]
                rw [if_neg hlt]
              refine ⟨j, lt_trans hj (Nat.lt_succ_self n), hv,
                by rw [closestFold_succ, heq, hstep], ?_, hstrict⟩
              intro i hi hvi
              rcases Nat.lt_succ_iff_lt_or_eq.mp hi with hi2 | rfl
              · exact hmin i hi2 hvi
              · exact le_of_not_lt hlt

lemma dist_le_of_ssd_le {x y z : List (Option ℚ)}
    (h : sum_squared_differences x z ≤ sum_squared_differences y z) :
    euclidean_distance x z ≤ euclidean_distance y z :=
  Real.sqrt_le_sqrt (by exact_mod_cast h)

lemma dist_lt_of_ssd_lt {x y z : List (Option ℚ)}
    (h : sum_squared_differences x z < sum_squared_differences y z) :
    euclidean_distance x z < euclidean_distance y z :=
  Real.sqrt_lt_sqrt (by exact_mod_cast ssd_nonneg x z) (by exact_mod_cast h)

/-- Row `j` is the closest complete row to the query row `q`, in the sense
the specification words it: another alternative with no missing data whose
distance to the query is minimal, ties broken by the lowest index. -/
def IsClosestCompleteRow (t : KTDA) (q j : ℕ) : Prop :=
  j < t.alternatives.length ∧ j ≠ q ∧ has_missing (t.scores.getD j []) = false ∧
  (∀ i, i < t.alternatives.length → i ≠ q → has_missing (t.scores.getD i []) = false →
    euclidean_distance (t.scores.getD j []) (t.scores.getD q []) ≤
      euclidean_distance (t.scores.getD i []) (t.scores.getD q [])) ∧
  (∀ i, i < j → i ≠ q → has_missing (t.scores.getD i []) = false →
    euclidean_distance (t.scores.getD j []) (t.scores.getD q []) <
      euclidean_distance (t.scores.getD i []) (t.scores.getD q []))

lemma getD_mem {α : Type} (l : List α) (a : ℕ) (d : α) (h : a < l.length) :
    l.getD a d ∈ l := by
  rw [List.getD_eq_getElem?_getD, List.getElem?_eq_getElem h]
  exact List.getElem_mem h

/-- When at least one other complete row exists, `_closest_index` returns a
genuine index and that index is the closest complete row. -/
lemma closest_index_spec (t : KTDA) (q : ℕ)
    (hlen : t.scores.length = t.alternatives.length)
    (hq : has_missing (t.scores.getD q []) = true)
    (hc : ∃ r ∈ t.scores, has_missing r = false) :
    ∃ j : ℕ, t.closest_index q = (j : Int) ∧ IsClosestCompleteRow t q j := by
  obtain ⟨r, hrmem, hrcomp⟩ := hc
  obtain ⟨k, hk, hkr⟩ := List.mem_iff_getElem.mp hrmem
  have hkd : t.scores.getD k [] = r := by
    rw [List.getD_eq_getElem?_getD, List.getElem?_eq_getElem hk, Option.getD_some, hkr]
  have hkq : k ≠ q := by
    intro h
    rw [h] at hkd
    rw [hkd, hrcomp] at hq
    exact Bool.false_ne_true hq
  have hkv : ValidCand t.scores q k := ⟨hkq, by rw [hkd]; exact hrcomp⟩
  have hkM : k < t.alternatives.length := hlen ▸ hk
  rcases closestFold_spec t.scores (t.scores.getD q []) q t.alternatives.length with
    ⟨_, hnone⟩ | ⟨j, hj, hv, heq, hmin, hstrict⟩
  · exact absurd hkv (hnone k hkM)
  · refine ⟨j, ?_, hj, hv.1, hv.2, ?_, ?_⟩
    · show (closestFold t.scores (t.scores.getD q []) q t.alternatives.length).1 = (j : Int)
      rw [heq]
    · intro i hi hiq hicomp
      exact dist_le_of_ssd_le (hmin i hi ⟨hiq, hicomp⟩)
    · intro i hi hiq hicomp
      exact dist_lt_of_ssd_lt (hstrict i hi ⟨hiq, hicomp⟩)

lemma mergeRow_length (qr dn : List (Option ℚ)) (h : qr.length ≤ dn.length) :
    (mergeRow qr dn).length = dn.length := by
  induction qr generalizing dn with
  | nil => rfl
  | cons x qs ih =>
      cases dn with
      | nil => simp at h
      | cons d ds =>
          show (mergeRow qs ds).length + 1 = ds.length + 1
          rw [ih ds (Nat.le_of_succ_le_succ h)]

lemma mergeRow_getD (qr dn : List (Option ℚ)) (h : qr.length ≤ dn.length) :
    ∀ k, (mergeRow qr dn).getD k none =
      if (qr.getD k none).isSome then qr.getD k none else dn.getD k none := by
  induction qr generalizing dn with
  | nil =>
      intro k
      simp [mergeRow]
  | cons x qs ih =>
      intro k
      cases dn with
      | nil => simp at h
      | cons d ds =>
          cases k with
          | zero =>
              show ((if x.isSome then x else d) :: mergeRow qs ds).getD 0 none = _
              cases x with
              | none => simp
              | some v => simp
          | succ k =>
              show ((if x.isSome then x else d) :: mergeRow qs ds).getD (k + 1) none = _
              rw [List.getD_cons_succ, List.getD_cons_succ, List.getD_cons_succ]
              exact ih ds (Nat.le_of_succ_le_succ h) k

lemma pyRow_natCast (scores : List (List (Option ℚ))) (j : ℕ) :
    pyRow scores (j : Int) = scores.getD j [] := by
  unfold pyRow
  rw [if_neg (by exact not_lt.mpr (Int.natCast_nonneg j)), Int.toNat_natCast]

lemma imputed_scores_getD (t : KTDA)
    (d : List (Option ℚ) → List (Option ℚ) → ℝ) (a : ℕ)
    (ha : a < t.alternatives.length) :
    (t.new_imputed_missing_scores d).scores.getD a [] =
      if has_missing (t.scores.getD a []) then
        mergeRow (t.scores.getD a []) (pyRow t.scores (t.closest_index a))
      else t.scores.getD a [] := by
  show ((List.range t.alternatives.length).map _).getD a [] = _
  rw [getD_map_range _ _ _ ha]

/-- C2: with at least one fully complete row, imputation keeps criteria,
weights and alternative names; every row with a missing value is replaced by
a copy of the closest complete row in which every position where the query
row is known carries the query's value and every position where the query is
missing keeps the donor's value; rows with no missing values pass through
unchanged. -/
theorem new_imputed_missing_scores_spec (t : KTDA)
    (d : List (Option ℚ) → List (Option ℚ) → ℝ)
    (hwf : WellFormed t) (hc : ∃ r ∈ t.scores, has_missing r = false) :
    (t.new_imputed_missing_scores d).criteria = t.criteria ∧
    (t.new_imputed_missing_scores d).weights = t.weights ∧
    (t.new_imputed_missing_scores d).alternatives = t.alternatives ∧
    (t.new_imputed_missing_scores d).scores.length = t.scores.length ∧
    (∀ a, a < t.scores.length →
      (has_missing (t.scores.getD a []) = false →
        (t.new_imputed_missing_scores d).scores.getD a [] = t.scores.getD a []) ∧
      (has_missing (t.scores.getD a []) = true →
        ∃ j, IsClosestCompleteRow t a j ∧
          ((t.new_imputed_missing_scores d).scores.getD a []).length =
            t.criteria.length ∧
          (∀ k, k < t.criteria.length →
            ((t.new_imputed_missing_scores d).scores.getD a []).getD k none =
              if ((t.scores.getD a []).getD k none).isSome
              then (t.scores.getD a []).getD k none
              else (t.scores.getD j []).getD k none))) := by
  obtain ⟨hwl, hsl, hrows⟩ := hwf
  refine ⟨rfl, rfl, rfl, ?_, ?_⟩
  · show ((List.range t.alternatives.length).map _).length = _
    rw [List.length_map, List.length_range, hsl]
  · intro a ha
    have haM : a < t.alternatives.length := hsl ▸ ha
    constructor
    · intro hcomp
      rw [imputed_scores_getD t d a haM, if_neg (by rw [hcomp]; exact Bool.false_ne_true)]
    · intro hmiss
      obtain ⟨j, hjeq, hjclosest⟩ := closest_index_spec t a hsl hmiss hc
      have hquery_len : (t.scores.getD a []).length = t.criteria.length :=
        hrows _ (getD_mem t.scores a [] ha)
      have hdonor_len : (t.scores.getD j []).length = t.criteria.length :=
        hrows _ (getD_mem t.scores j [] (by rw [hsl]; exact hjclosest.1))
      have hle : (t.scores.getD a []).length ≤ (t.scores.getD j []).length :=
        le_of_eq (hquery_len.trans hdonor_len.symm)
      have hrow : (t.new_imputed_missing_scores d).scores.getD a [] =
          mergeRow (t.scores.getD a []) (t.scores.getD j []) := by
        rw [imputed_scores_getD t d a haM, if_pos hmiss, hjeq, pyRow_natCast]
      refine ⟨j, hjclosest, ?_, ?_⟩
      · rw [hrow, mergeRow_length _ _ hle]
        exact hdonor_len
      · intro k hk
        rw [hrow, mergeRow_getD _ _ hle k]

/-- A table with one incomplete row and two complete rows: the incomplete
row `[none, 3]` is closer to `[1, 2]` (squared distance `1` over the jointly
known position) than to `[0, 0]` (squared distance `9`). -/
def t2w : KTDA := KTDA.mk ["a", "b"] [1, 1] ["A", "B", "C"]
  [[some 1, some 2], [none, some 3], [some 0, some 0]]

/-- Closed instance of `new_imputed_missing_scores_spec`. -/
theorem new_imputed_missing_scores_spec_witness :
    WellFormed t2w ∧ (∃ r ∈ t2w.scores, has_missing r = false) ∧
    ((t2w.new_imputed_missing_scores dZero).criteria = t2w.criteria ∧
    (t2w.new_imputed_missing_scores dZero).weights = t2w.weights ∧
    (t2w.new_imputed_missing_scores dZero).alternatives = t2w.alternatives ∧
    (t2w.new_imputed_missing_scores dZero).scores.length = t2w.scores.length ∧
    (∀ a, a < t2w.scores.length →
      (has_missing (t2w.scores.getD a []) = false →
        (t2w.new_imputed_missing_scores dZero).scores.getD a [] = t2w.scores.getD a []) ∧
      (has_missing (t2w.scores.getD a []) = true →
        ∃ j, IsClosestCompleteRow t2w a j ∧
          ((t2w.new_imputed_missing_scores dZero).scores.getD a []).length =
            t2w.criteria.length ∧
          (∀ k, k < t2w.criteria.length →
            ((t2w.new_imputed_missing_scores dZero).scores.getD a []).getD k none =
              if ((t2w.scores.getD a []).getD k none).isSome
              then (t2w.scores.getD a []).getD k none
              else (t2w.scores.getD j []).getD k none)))) :=
  ⟨by decide, by decide,
   new_imputed_missing_scores_spec t2w dZero (by decide) (by decide)⟩

end Nadan
